import Mathlib

/-!
Verification model of the Arduino/ESP8266 `String` class, shallowly embedding
`cores/esp8266/WString.cpp`.

Bytes are modelled as natural numbers; the NUL terminator is the byte 0.
A `String` value carries its complete active storage block `buf` (the SSO
array or the heap block, of size capacity + 1), the active representation
flag `isSSO`, and the logical length `slen`.

The class data layout and its accessors (`len()`, `capacity()`, `buffer()`,
`setLen`, `SSOSIZE`, `CAPACITY_MAX`) live in the header `WString.h`, which is
not among the sources; they are modelled from the spec: the inline capacity is
the inline array size minus one (reserved for the terminator), the capacity of
a heap block of `n` bytes is `n - 1`, a value after `init()`/`invalidate()` is
the empty inline value, and `buffer()` always points at the active storage
(so it is never null for a value produced by the modelled operations).
The allocator is an external collaborator; it is modelled as an oracle
`alloc : Nat → Bool` telling whether a (re)allocation of a given byte size
succeeds.  `realloc` preserves the leading `min oldSize newSize` bytes and is
modelled accordingly; bytes of a fresh block that the code never writes are
modelled as 0.  Writes beyond the allocated block are out-of-bounds in C; the
model truncates every write to the allocation, so an out-of-bounds situation
surfaces as `slen` exceeding the modelled capacity instead.
-/

namespace WString

/-- Guard of the C string scans: a byte is "not the terminator". -/
def nz (c : Nat) : Bool := c != 0

/-- Modelled from the spec (header `WString.h` is absent): the size of the
inline `sso.buff` array.  On the 32-bit target `sizeof(struct _ptr) + 4 - 1 = 11`,
giving the fixed inline capacity `SSOSIZE - 1 = 10`. -/
def SSOSIZE : Nat := 11

/-- Modelled from the spec (header `WString.h` is absent): the hard ceiling the
rounded allocation size is checked against in `changeBuffer`. -/
def CAPACITY_MAX : Nat := 65535

/-- Bytes `[pos, pos+n)` of a block (reads past the end just return less). -/
def readRange (l : List Nat) (pos n : Nat) : List Nat := (l.drop pos).take n

/-- Overlap-safe block write (`memmove`): `src` is fully evaluated before being
written at `pos`.  The final `take l.length` models that the allocation has
exactly `l.length` bytes: anything the C code would write beyond it is
out-of-bounds and not retained by the model. -/
def writeRange (l : List Nat) (pos : Nat) (src : List Nat) : List Nat :=
  (l.take pos ++ src ++ l.drop (pos + src.length)).take l.length

/-- The C string stored at the start of a block: bytes up to the first 0. -/
def cstr (l : List Nat) : List Nat := l.takeWhile nz

/-- Modelled state of one Arduino `String` value. -/
structure String where
  isSSO : Bool
  buf : List Nat
  slen : Nat
deriving DecidableEq, Repr

/-- Accessor `capacity()`: content bytes available, excluding the terminator
slot.  The active block always has `capacity + 1` bytes. -/
def capacity (s : String) : Nat := s.buf.length - 1

/-- Accessor `len()`. -/
def len (s : String) : Nat := s.slen

/-- Logical content: the first `len` bytes of the active block. -/
def content (s : String) : List Nat := readRange s.buf 0 s.slen

/-- The C string at the start of the active block (what `strlen`-based code
observes). -/
def cstrOf (s : String) : List Nat := cstr s.buf

/-- Modelled from the spec: `init()` produces the empty inline value (also the
state after `invalidate()`, which frees any heap block and re-inits). -/
def init : String := ⟨true, List.replicate SSOSIZE 0, 0⟩

/-- Transcription of `String::changeBuffer(unsigned int maxStrLen)`.
When the request fits SSO, switch to (or stay in) the inline buffer, copying
`maxStrLen` bytes out of a heap block if one was active (the inline array's
other bytes come from the union reinterpretation; the model takes them as 0).
Otherwise round the size up (`(maxStrLen + 16) & ~0xf`), refuse if the rounded
size exceeds `CAPACITY_MAX`, and `realloc` (preserving leading bytes,
`memset`-zeroing the grown region).  `none` means "returned false", in which
case the C object is untouched. -/
def changeBuffer (alloc : Nat → Bool) (s : String) (maxStrLen : Nat) :
    Option String :=
  if maxStrLen < SSOSIZE - 1 then
    if s.isSSO then
      some s
    else
      some ⟨true, writeRange (List.replicate SSOSIZE 0) 0 (s.buf.take maxStrLen), s.slen⟩
  else
    let newSize := (maxStrLen + 16) / 16 * 16
    if newSize > CAPACITY_MAX then none
    else if alloc newSize then
      some ⟨false, s.buf.take newSize ++ List.replicate (newSize - s.buf.length) 0, s.slen⟩
    else none

/-- Transcription of `String::reserve(unsigned int size)`: no-op if the active
capacity suffices (the modelled `buffer()` is never null), else `changeBuffer`,
writing a terminator at offset 0 for a previously empty value. -/
def reserve (alloc : Nat → Bool) (s : String) (size : Nat) : Option String :=
  if size ≤ capacity s then some s
  else
    match changeBuffer alloc s size with
    | some t => some (if t.slen = 0 then ⟨t.isSSO, t.buf.set 0 0, t.slen⟩ else t)
    | none => none

/-- Transcription of `String::copy(const char *cstr, unsigned int length)`:
on reservation failure the value is invalidated; otherwise the source bytes
plus their terminator (`length + 1` bytes) are moved in and the length set.
`src` stands for the `length` source bytes; the byte after them is the
source's terminator. -/
def copy (alloc : Nat → Bool) (s : String) (src : List Nat) : String :=
  match reserve alloc s src.length with
  | none => init
  | some t => ⟨t.isSSO, writeRange t.buf 0 (src ++ [0]), src.length⟩

/-- Transcription of `String::copy(const __FlashStringHelper*, unsigned int)`:
identical to `copy` except that it uses the flash block-copy primitive
(`memcpy_P`), which moves the same bytes. -/
def copyFlash (alloc : Nat → Bool) (s : String) (src : List Nat) : String :=
  match reserve alloc s src.length with
  | none => init
  | some t => ⟨t.isSSO, writeRange t.buf 0 (src ++ [0]), src.length⟩

/-- Transcription of `String::operator=(const String &rhs)` for `this ≠ &rhs`:
`rhs.buffer()` is never null in the model, so it always deep-copies
`rhs.len()` bytes. -/
def assignString (alloc : Nat → Bool) (dst src : String) : String :=
  copy alloc dst (readRange src.buf 0 src.slen)

/-- Transcription of `String::concat(const char *cstr, unsigned int length)`.
`none` models a null `cstr`; otherwise `src` stands for the `length` bytes at
`cstr`.  A zero-length addend returns true without touching anything; on
reservation failure the value is left unchanged and false is returned. -/
def concat (alloc : Nat → Bool) (s : String) (cstr? : Option (List Nat)) :
    Bool × String :=
  match cstr? with
  | none => (false, s)
  | some src =>
    if src.length = 0 then (true, s)
    else
      match reserve alloc s (s.slen + src.length) with
      | none => (false, s)
      | some t =>
        (true, ⟨t.isSSO,
                (writeRange t.buf t.slen src).set (t.slen + src.length) 0,
                t.slen + src.length⟩)

/-- Transcription of the `&s == this` branch of `String::concat(const String&)`:
grow first, then copy the current content onto itself at offset `len` with an
overlap-safe move (the copy reads the post-growth block).  The modelled
`s.buffer()` is never null, so the null-buffer early-false branch of the C
code is not reachable. -/
def concatSelf (alloc : Nat → Bool) (s : String) : Bool × String :=
  if s.slen = 0 then (true, s)
  else
    match reserve alloc s (2 * s.slen) with
    | none => (false, s)
    | some t =>
      (true, ⟨t.isSSO,
              (writeRange t.buf t.slen (readRange t.buf 0 t.slen)).set (2 * t.slen) 0,
              2 * t.slen⟩)

/-- Transcription of the `&s ≠ this` branch of `String::concat(const String&)`:
delegates to `concat` with the other value's buffer and length. -/
def concatOther (alloc : Nat → Bool) (s other : String) : Bool × String :=
  concat alloc s (some (readRange other.buf 0 other.slen))

/-- Index search behind C `strstr(hay, pat)` (on byte lists): the first index
at which `pat` occurs in `hay`, if any. -/
def strstrAux (pat : List Nat) : List Nat → Nat → Option Nat
  | [], i => if pat.isPrefixOf ([] : List Nat) then some i else none
  | a :: t, i => if pat.isPrefixOf (a :: t) then some i else strstrAux pat t (i + 1)

/-- First occurrence of `pat` in `hay` (C `strstr`, with the haystack already
cut at its terminator and the needle's bytes given as a list). -/
def strstrIdx (hay pat : List Nat) : Option Nat := strstrAux pat hay 0

/-- Modelled from the spec (the helper `__strrstr_P` is not among the
sources): the position of the last match of `pat` that starts within the
first `n` bytes of the block and fits inside them — "the position of the last
match at or before a given start offset". -/
def strrstrIdx (buf : List Nat) (n : Nat) (pat : List Nat) : Option Nat :=
  ((List.range (n + 1 - pat.length)).filter
    (fun i => readRange buf i pat.length = pat)).getLast?

/-- Unsigned `~0U`, the `fromIndex` default marker in `_lastIndexOf_P`. -/
def UINT_MAX : Nat := 4294967295

/-- Transcription of `String::_lastIndexOf_P(PGM_P, size_t, size_t)` (the
needle is never null at its use inside `_replace`): searches the last match
within the first `fromIndex + findLen` block bytes. -/
def lastIndexOfFrom (buf : List Nat) (slen : Nat) (find : List Nat)
    (fromIndex : Nat) : Option Nat :=
  if slen = 0 then none
  else
    let fromIndex := if fromIndex = UINT_MAX then slen else fromIndex
    strrstrIdx buf (fromIndex + find.length) find

/-- Equal-length branch loop of `String::_replace`: repeatedly `strstr` from
`readFrom` in the C string at that offset, overwrite the match with
`replaceStr`, continue after it.  `fuel` only bounds the recursion; each
iteration advances `readFrom` by at least one byte. -/
def replaceEqLoop (findStr replaceStr : List Nat) :
    Nat → List Nat → Nat → List Nat
  | 0, buf, _ => buf
  | fuel + 1, buf, readFrom =>
    match strstrIdx ((buf.drop readFrom).takeWhile nz) findStr with
    | none => buf
    | some j =>
      replaceEqLoop findStr replaceStr fuel
        (writeRange buf (readFrom + j) replaceStr)
        (readFrom + j + replaceStr.length)

/-- Shrinking branch loop of `String::_replace`: compact left-to-right,
moving the gap before each match down to the write cursor, then the
replacement, shrinking the length by `findLen - replaceLen` per match.
Returns (block, writeTo, readFrom, len). -/
def replaceShrinkLoop (findStr replaceStr : List Nat) (diffAbs : Nat) :
    Nat → List Nat → Nat → Nat → Nat → List Nat × Nat × Nat × Nat
  | 0, buf, w, r, l => (buf, w, r, l)
  | fuel + 1, buf, w, r, l =>
    match strstrIdx ((buf.drop r).takeWhile nz) findStr with
    | none => (buf, w, r, l)
    | some j =>
      let b1 := writeRange buf w (readRange buf r j)
      let b2 := writeRange b1 (w + j) replaceStr
      replaceShrinkLoop findStr replaceStr diffAbs fuel b2
        (w + j + replaceStr.length) (r + j + findStr.length) (l - diffAbs)

/-- Counting pass of the growing branch of `String::_replace`: walks the
non-overlapping matches left-to-right adding `diff` per match. -/
def replaceCountLoop (findStr : List Nat) (diff : Nat) :
    Nat → List Nat → Nat → Nat → Nat
  | 0, _, _, size => size
  | fuel + 1, buf, r, size =>
    match strstrIdx ((buf.drop r).takeWhile nz) findStr with
    | none => size
    | some j =>
      replaceCountLoop findStr diff fuel buf (r + j + findStr.length) (size + diff)

/-- Rewrite pass of the growing branch of `String::_replace`: from
`index = len - 1` downwards, find the last match at or before `index`, shift
the tail right by `diff` (overlap-safe move), write the replacement, bump the
length and re-terminate, and continue just before the found match. -/
def replaceGrowLoop (findStr replaceStr : List Nat) (diff : Nat) :
    Nat → List Nat → Nat → Int → List Nat × Nat
  | 0, buf, l, _ => (buf, l)
  | fuel + 1, buf, l, index =>
    if index < 0 then (buf, l)
    else
      match lastIndexOfFrom buf l findStr index.toNat with
      | none => (buf, l)
      | some idx =>
        let readFrom := idx + findStr.length
        let b1 := writeRange buf (readFrom + diff) (readRange buf readFrom (l - readFrom))
        let b2 := writeRange b1 idx replaceStr
        replaceGrowLoop findStr replaceStr diff fuel
          (b2.set (l + diff) 0) (l + diff) ((idx : Int) - 1)

/-- Transcription of `String::_replace(PGM_P, size_t, size_t, PGM_P)`.
`find?` is `none` for a null `findStr`; `find`/`replaceStr` stand for the
`findLen`/`replaceLen` bytes of the two patterns.  An empty value, an empty
find pattern or a null find pattern fail immediately; otherwise the branch is
selected by comparing the two lengths.  The loop fuels strictly dominate the
possible iteration counts (each equal/shrink/count iteration advances the
read offset, each grow iteration decreases `index`). -/
def replaceStrs (alloc : Nat → Bool) (s : String) (find? : Option (List Nat))
    (replaceStr : List Nat) : Bool × String :=
  match find? with
  | none => (false, s)
  | some find =>
    if s.slen = 0 ∨ find.length = 0 then (false, s)
    else
      let fuel := s.buf.length + s.slen + 2
      if replaceStr.length = find.length then
        (true, ⟨s.isSSO, replaceEqLoop find replaceStr fuel s.buf 0, s.slen⟩)
      else if replaceStr.length < find.length then
        let r4 := replaceShrinkLoop find replaceStr (find.length - replaceStr.length)
                    fuel s.buf 0 0 s.slen
        (true, ⟨s.isSSO,
                writeRange r4.1 r4.2.1 (((r4.1.drop r4.2.2.1).takeWhile nz) ++ [0]),
                r4.2.2.2⟩)
      else
        let diff := replaceStr.length - find.length
        let size := replaceCountLoop find diff fuel s.buf 0 s.slen
        if size = s.slen then (false, s)
        else
          match (if size > capacity s then changeBuffer alloc s size else some s) with
          | none => (false, s)
          | some t =>
            let r2 := replaceGrowLoop find replaceStr diff (fuel + t.buf.length)
                        t.buf t.slen ((t.slen : Int) - 1)
            (true, ⟨t.isSSO, r2.1, r2.2⟩)

/-- Transcription of `String::remove(unsigned int index, unsigned int count)`:
no-op past the end or for zero count; clamp `count` to the tail, shift the
bytes after the removed range down (overlap-safe move), shorten, re-terminate. -/
def removeAt (s : String) (index count : Nat) : String :=
  if s.slen ≤ index then s
  else if count = 0 then s
  else
    let count := min count (s.slen - index)
    let newlen := s.slen - count
    ⟨s.isSSO,
     (writeRange s.buf index (readRange s.buf (index + count) (newlen - index))).set newlen 0,
     newlen⟩

/-- Transcription of `String::substring(unsigned int, unsigned int) const`
(the non-MSC branch): swap an inverted range, empty result past the end,
clamp `right` to the length, then temporarily terminate the source at
`right`, copy-construct from offset `left` (`operator=(const char*)` =
`copy` of the C string there), and restore the saved byte.  Returns the new
value and the source as left behind by the call. -/
def substring (alloc : Nat → Bool) (s : String) (left right : Nat) :
    String × String :=
  let lr := if right < left then (right, left) else (left, right)
  if s.slen ≤ lr.1 then (init, s)
  else
    let right := min lr.2 s.slen
    let tempchar := s.buf.getD right 0
    let b1 := s.buf.set right 0
    let out := copy alloc init ((b1.drop lr.1).takeWhile nz)
    (out, ⟨s.isSSO, b1.set right tempchar, s.slen⟩)

/-- C `strcmp` on byte lists already cut at their terminators: returns the
difference of the first differing byte pair (bytes are unsigned). -/
def strcmpM : List Nat → List Nat → Int
  | [], [] => 0
  | [], b :: _ => 0 - (b : Int)
  | a :: _, [] => (a : Int)
  | a :: t1, b :: t2 => if a = b then strcmpM t1 t2 else (a : Int) - (b : Int)

/-- Transcription of `String::compareTo(const String&) const`: the modelled
`buffer()` is never null (an invalid value is the empty inline value), so the
defensive null branch of the C code is unreachable and the comparison is
`strcmp` of the two stored C strings. -/
def compareTo (s1 s2 : String) : Int := strcmpM (cstrOf s1) (cstrOf s2)

/-- Transcription of `String::operator<`. -/
def ltOp (s1 s2 : String) : Bool := compareTo s1 s2 < 0

/-- Transcription of `String::operator>`. -/
def gtOp (s1 s2 : String) : Bool := compareTo s1 s2 > 0

/-- Transcription of `String::operator<=`. -/
def leOp (s1 s2 : String) : Bool := compareTo s1 s2 ≤ 0

/-- Transcription of `String::operator>=`. -/
def geOp (s1 s2 : String) : Bool := compareTo s1 s2 ≥ 0

/-- Loop of `String::equalsConstantTime`: walk `p1` (the first value's C
string) to its terminator, and for every position bump either the
equal-bytes counter or the differing-bytes counter — never exiting early. -/
def ectCounts : List Nat → List Nat → Nat × Nat
  | [], _ => (0, 0)
  | _ :: _, [] => (0, 0)
  | a :: t1, b :: t2 =>
    let r := ectCounts t1 t2
    if a = b then (r.1 + 1, r.2) else (r.1, r.2 + 1)

/-- Transcription of `String::equalsConstantTime(const String&) const`:
short-circuit only on a length mismatch (and on two empty values), otherwise
scan every byte of the first value's C string against the second value's
bytes, and combine the two final conditions with a bitwise AND. -/
def equalsConstantTime (s1 s2 : String) : Nat :=
  if s1.slen ≠ s2.slen then 0
  else if s1.slen = 0 then 1
  else
    let p1 := cstrOf s1
    let c := ectCounts p1 (readRange s2.buf 0 p1.length)
    (if c.1 = s1.slen then 1 else 0) &&& (if c.2 = 0 then 1 else 0)

/-- Leading scan of `String::_trim(TrimType, PGM_P, size_t)` with `LEFT` set:
the number of initial block positions whose byte is found by
`memchr_P(characters, buffer()[remove], charLen)` *after* the `charLen++`,
i.e. found among the set's bytes **or equal to the set's own terminator 0**.
The C loop has no index bound; the model counts within the allocation (a
count that reaches the end of the allocation means the C scan ran off it). -/
def trimLeftScanCount (s : String) (chars : List Nat) : Nat :=
  (s.buf.takeWhile (fun c => (chars ++ [0]).contains c)).length

/-- Transcription of the `LEFT`-only path of
`String::_trim(TrimType, PGM_P, size_t)`: guard on an empty value / null or
empty set, scan the leading run, and delegate to `remove(0, count)`. -/
def trimCharsLeft (s : String) (chars? : Option (List Nat)) : String :=
  match chars? with
  | none => s
  | some chars =>
    if s.slen = 0 ∨ chars.length = 0 then s
    else removeAt s 0 (trimLeftScanCount s chars)

/-- Well-formed value: the block holds at least `len + 1` bytes, the content
bytes are not NUL, and byte `len` is the terminator (the central invariant of
the class; states reachable through the API keep it, as long as no NUL byte
is planted into the content). -/
def Wf (s : String) : Prop :=
  s.slen + 1 ≤ s.buf.length ∧ (∀ c ∈ s.buf.take s.slen, c ≠ 0) ∧
  s.buf.getD s.slen 1 = 0

instance (s : String) : Decidable (Wf s) := by
  unfold Wf; infer_instance

/-- The always-succeeding allocator. -/
def allocTrue : Nat → Bool := fun _ => true

/-- The allocator of an exhausted heap: every request fails. -/
def allocFalse : Nat → Bool := fun _ => false

/-- An inline value holding the given (at most `SSOSIZE - 1`) content bytes. -/
def mkSSO (l : List Nat) : String :=
  ⟨true, l ++ List.replicate (SSOSIZE - l.length) 0, l.length⟩

/-- The value holding "banana". -/
def bananaS : String := mkSSO [98, 97, 110, 97, 110, 97]

/-- The value holding "abc". -/
def abcS : String := mkSSO [97, 98, 99]

/-- The value holding "abcdef". -/
def abcdefS : String := mkSSO [97, 98, 99, 100, 101, 102]

/-- The value holding "x". -/
def xS : String := mkSSO [120]

/-- The value holding ten 'a' bytes. -/
def tenAsS : String := mkSSO (List.replicate 10 97)

/-- A `takeWhile` scan for non-NUL bytes collects exactly the bytes before a
terminator, provided none of them is NUL. -/
theorem takeWhile_nz_append (A rest : List Nat) (hA : ∀ a ∈ A, a ≠ 0) :
    (A ++ 0 :: rest).takeWhile nz = A := by
  induction A with
  | nil => simp [nz]
  | cons a t ih =>
    have ha : nz a = true := by
      have := hA a (by simp)
      simp [nz, this]
    simp only [List.cons_append, List.takeWhile_cons, ha, if_true]
    rw [ih (fun x hx => hA x (by simp [hx]))]

/-- Dropping to an in-range position exposes the byte there as list head. -/
theorem drop_eq_getD_cons : ∀ (l : List Nat) (n : Nat), n < l.length →
    l.drop n = l.getD n 1 :: l.drop (n + 1)
  | _ :: _, 0, _ => rfl
  | a :: t, n + 1, h => by
    simp only [List.drop_succ_cons, List.getD_cons_succ]
    exact drop_eq_getD_cons t n (by simpa using h)

/-- Taking one more in-range byte appends the byte at the old end. -/
theorem take_succ_getD : ∀ (l : List Nat) (n : Nat), n < l.length →
    l.take (n + 1) = l.take n ++ [l.getD n 1]
  | a :: t, 0, _ => by simp
  | a :: t, n + 1, h => by
    simp only [List.take_succ_cons, List.getD_cons_succ, List.cons_append]
    rw [take_succ_getD t n (by simpa using h)]

/-- Writing a single byte at or past the taken prefix leaves it unchanged. -/
theorem take_set_ge (v : Nat) : ∀ (l : List Nat) (i n : Nat), n ≤ i →
    (l.set i v).take n = l.take n
  | [], _, _, _ => by simp
  | _ :: _, _, 0, _ => by simp
  | a :: t, i + 1, n + 1, h => by
    simp only [List.set_cons_succ, List.take_succ_cons]
    rw [take_set_ge v t i n (by omega)]
  | _ :: _, 0, n + 1, h => by omega

/-- Writing back the byte already present is the identity. -/
theorem set_getD_self (d : Nat) : ∀ (l : List Nat) (i : Nat), i < l.length →
    l.set i (l.getD i d) = l
  | [], _, h => by simp at h
  | _ :: _, 0, _ => by simp
  | a :: t, i + 1, h => by
    simp only [List.getD_cons_succ, List.set_cons_succ]
    rw [set_getD_self d t i (by simpa using h)]

/-- An in-range block write keeps the allocation size. -/
theorem writeRange_length_eq (l : List Nat) (p : Nat) (src : List Nat)
    (h : p + src.length ≤ l.length) : (writeRange l p src).length = l.length := by
  simp only [writeRange, List.length_take, List.length_append, List.length_drop]
  omega

/-- An in-range block write is plain splicing (no truncation happens). -/
theorem writeRange_eq (l : List Nat) (p : Nat) (src : List Nat)
    (h : p + src.length ≤ l.length) :
    writeRange l p src = l.take p ++ src ++ l.drop (p + src.length) := by
  unfold writeRange
  apply List.take_of_length_le
  simp only [List.length_append, List.length_take, List.length_drop]
  omega

/-- Writing a prefix of a block over itself changes nothing. -/
theorem writeRange_prefix_self (l : List Nat) (k : Nat) :
    writeRange l 0 (l.take k) = l := by
  unfold writeRange
  simp only [List.take_zero, List.nil_append, Nat.zero_add, List.length_take]
  rcases le_or_lt k l.length with h | h
  · rw [Nat.min_eq_left h, List.take_append_drop, List.take_length]
  · rw [Nat.min_eq_right (le_of_lt h), List.take_of_length_le (le_of_lt h),
        List.drop_length, List.append_nil, List.take_length]

/-- Reading from offset 0 is a plain prefix. -/
theorem readRange_zero (l : List Nat) (n : Nat) : readRange l 0 n = l.take n := by
  simp [readRange]

/-- The content of a value is the prefix of its block of its length. -/
theorem content_eq (s : String) : content s = s.buf.take s.slen := by
  simp [content, readRange]

/-- A well-formed block splits as content, terminator, slack. -/
theorem Wf.buf_decomp {s : String} (h : Wf s) :
    s.buf = s.buf.take s.slen ++ 0 :: s.buf.drop (s.slen + 1) := by
  conv_lhs => rw [← List.take_append_drop s.slen s.buf]
  have hd : s.buf.drop s.slen = 0 :: s.buf.drop (s.slen + 1) := by
    rw [drop_eq_getD_cons s.buf s.slen (by have h1 := h.1; omega), h.2.2]
  rw [hd]

/-- On a well-formed value, `strlen`-style scans observe exactly the content. -/
theorem Wf.cstrOf_eq {s : String} (h : Wf s) : cstrOf s = s.buf.take s.slen := by
  have h2 := takeWhile_nz_append (s.buf.take s.slen) (s.buf.drop (s.slen + 1)) h.2.1
  calc cstrOf s
      = (s.buf.take s.slen ++ 0 :: s.buf.drop (s.slen + 1)).takeWhile nz := by
        unfold cstrOf cstr
        rw [← h.buf_decomp]
    _ = s.buf.take s.slen := h2

/-- A successful `strstrAux` search means the needle occurs in the haystack. -/
theorem strstrAux_some_occurs {pat : List Nat} :
    ∀ {l : List Nat} {i k : Nat}, strstrAux pat l i = some k → pat <:+: l := by
  intro l
  induction l with
  | nil =>
    intro i k h
    unfold strstrAux at h
    split at h
    · rename_i hp
      exact (List.isPrefixOf_iff_prefix.mp hp).isInfix
    · cases h
  | cons a t ih =>
    intro i k h
    unfold strstrAux at h
    split at h
    · rename_i hp
      exact (List.isPrefixOf_iff_prefix.mp hp).isInfix
    · exact List.infix_cons (ih h)

/-- A needle that occurs nowhere is never found by `strstr`. -/
theorem strstrIdx_eq_none {hay pat : List Nat} (h : ¬ pat <:+: hay) :
    strstrIdx hay pat = none := by
  unfold strstrIdx
  cases hc : strstrAux pat hay 0 with
  | none => rfl
  | some k => exact absurd (strstrAux_some_occurs hc) h

/-- The equal-length replace loop exits at once when `strstr` finds nothing. -/
theorem replaceEqLoop_stop (find rep : List Nat) (fuel : Nat) (buf : List Nat)
    (r : Nat) (h : strstrIdx ((buf.drop r).takeWhile nz) find = none) :
    replaceEqLoop find rep fuel buf r = buf := by
  cases fuel with
  | zero => rfl
  | succ f => unfold replaceEqLoop; rw [h]

/-- The shrinking replace loop exits at once when `strstr` finds nothing. -/
theorem replaceShrinkLoop_stop (find rep : List Nat) (d fuel : Nat)
    (buf : List Nat) (w r l : Nat)
    (h : strstrIdx ((buf.drop r).takeWhile nz) find = none) :
    replaceShrinkLoop find rep d fuel buf w r l = (buf, w, r, l) := by
  cases fuel with
  | zero => rfl
  | succ f => unfold replaceShrinkLoop; rw [h]

/-- The counting pass returns its accumulator when `strstr` finds nothing. -/
theorem replaceCountLoop_stop (find : List Nat) (d fuel : Nat)
    (buf : List Nat) (r size : Nat)
    (h : strstrIdx ((buf.drop r).takeWhile nz) find = none) :
    replaceCountLoop find d fuel buf r size = size := by
  cases fuel with
  | zero => rfl
  | succ f => unfold replaceCountLoop; rw [h]

/-- C2: an allocation failure during a copy/assignment (from an ordinary or a
flash source, or `operator=` from another value) invalidates the destination
to the empty state, while an allocation failure during a pure append
(`concat`) leaves the destination untouched and returns false. -/
theorem c2_alloc_failure (alloc : Nat → Bool) (s other : String) (src : List Nat) :
    (reserve alloc s src.length = none →
      copy alloc s src = init ∧ copyFlash alloc s src = init) ∧
    (reserve alloc s (readRange other.buf 0 other.slen).length = none →
      assignString alloc s other = init) ∧
    (src ≠ [] → reserve alloc s (s.slen + src.length) = none →
      concat alloc s (some src) = (false, s)) := by
  refine ⟨fun h => ⟨?_, ?_⟩, fun h => ?_, fun hne h => ?_⟩
  · simp [copy, h]
  · simp [copyFlash, h]
  · simp [assignString, copy, h]
  · have hlen : src.length ≠ 0 := by simpa using hne
    simp [concat, hlen, h]

/-- Witness for `c2_alloc_failure`: with every allocation failing, copying
eleven bytes into the empty value invalidates it (a no-op here since it is
already empty) and appending them fails leaving it unchanged. -/
theorem c2_alloc_failure_witness :
    reserve allocFalse init (List.replicate 11 (1 : Nat)).length = none ∧
    (copy allocFalse init (List.replicate 11 1) = init ∧
     copyFlash allocFalse init (List.replicate 11 1) = init) ∧
    concat allocFalse init (some (List.replicate 11 1)) = (false, init) :=
  ⟨by decide,
   (c2_alloc_failure allocFalse init init (List.replicate 11 1)).1 (by decide),
   (c2_alloc_failure allocFalse init init (List.replicate 11 1)).2.2
     (by decide) (by decide)⟩

/-- C4: a zero-length addend always concatenates successfully without any
change or growth: `concat(cstr, 0)`, concatenation of an empty value, and
self-concatenation of an empty value. -/
theorem c4_zero_length_concat (alloc : Nat → Bool) (s other : String) :
    concat alloc s (some []) = (true, s) ∧
    (other.slen = 0 → concatOther alloc s other = (true, s)) ∧
    (s.slen = 0 → concatSelf alloc s = (true, s)) := by
  refine ⟨by simp [concat], fun h => ?_, fun h => ?_⟩
  · simp [concatOther, h, readRange, concat]
  · simp [concatSelf, h]

/-- Witness for `c4_zero_length_concat`: concrete zero-length appends onto
"banana" and onto the empty value, under the always-failing allocator (no
growth is even attempted). -/
theorem c4_zero_length_concat_witness :
    concat allocFalse bananaS (some []) = (true, bananaS) ∧
    (init.slen = 0 ∧ concatOther allocFalse bananaS init = (true, bananaS)) ∧
    (init.slen = 0 ∧ concatSelf allocFalse init = (true, init)) :=
  ⟨(c4_zero_length_concat allocFalse bananaS init).1,
   ⟨by decide, (c4_zero_length_concat allocFalse bananaS init).2.1 (by decide)⟩,
   ⟨by decide, (c4_zero_length_concat allocFalse init bananaS).2.2 (by decide)⟩⟩

/-- A bound swap normalizes an inverted range to (lower, upper). -/
theorem swap_pair (left right : Nat) :
    (if right < left then (right, left) else (left, right)) =
    (min left right, max left right) := by
  by_cases h : right < left
  · rw [if_pos h, Nat.min_eq_right (by omega), Nat.max_eq_left (by omega)]
  · rw [if_neg h, Nat.min_eq_left (by omega), Nat.max_eq_right (by omega)]

/-- Within the caps of `reserve` the always-succeeding allocator makes
`changeBuffer` succeed. -/
theorem changeBuffer_isSome (alloc : Nat → Bool) (s : String) (n : Nat)
    (halloc : ∀ m, alloc m = true) (hn : n ≤ 65519) :
    ∃ u, changeBuffer alloc s n = some u := by
  have hbig : ¬ (n + 16) / 16 * 16 > CAPACITY_MAX := by
    have hC : CAPACITY_MAX = 65535 := rfl
    omega
  by_cases hsmall : n < SSOSIZE - 1
  · by_cases hisso : s.isSSO = true
    · exact ⟨s, by simp only [changeBuffer, if_pos hsmall, if_pos hisso]⟩
    · exact ⟨⟨true, writeRange (List.replicate SSOSIZE 0) 0 (s.buf.take n), s.slen⟩,
        by simp only [changeBuffer, if_pos hsmall, if_neg hisso]⟩
  · exact ⟨⟨false, s.buf.take ((n + 16) / 16 * 16) ++
        List.replicate ((n + 16) / 16 * 16 - s.buf.length) 0, s.slen⟩,
      by simp only [changeBuffer, if_neg hsmall, if_neg hbig,
        if_pos (halloc ((n + 16) / 16 * 16))]⟩

/-- Within the caps the always-succeeding allocator makes `reserve` succeed. -/
theorem reserve_isSome (alloc : Nat → Bool) (s : String) (n : Nat)
    (halloc : ∀ m, alloc m = true) (hn : n ≤ 65519) :
    ∃ t, reserve alloc s n = some t := by
  unfold reserve
  by_cases hcap : n ≤ capacity s
  · rw [if_pos hcap]
    exact ⟨s, rfl⟩
  · rw [if_neg hcap]
    obtain ⟨u, hu⟩ := changeBuffer_isSome alloc s n halloc hn
    rw [hu]
    exact ⟨_, rfl⟩

/-- A successful `copy` holds exactly the source bytes. -/
theorem copy_content (alloc : Nat → Bool) (s : String) (src : List Nat)
    {t : String} (hr : reserve alloc s src.length = some t)
    (hlen2 : src.length + 1 ≤ t.buf.length) :
    content (copy alloc s src) = src ∧ (copy alloc s src).slen = src.length := by
  unfold copy
  rw [hr]
  refine ⟨?_, rfl⟩
  rw [content_eq]
  show (writeRange t.buf 0 (src ++ [0])).take src.length = src
  rw [writeRange_eq t.buf 0 (src ++ [0])
        (by simp only [Nat.zero_add, List.length_append, List.length_cons,
              List.length_nil]; omega)]
  simp only [List.take_zero, List.nil_append]
  rw [List.append_assoc, List.take_append_eq_append_take,
      List.take_of_length_le (le_refl _), Nat.sub_self, List.take_zero,
      List.append_nil]

/-- The block prefix of a value of its length has exactly that length. -/
theorem content_length {s : String} (h : s.slen ≤ s.buf.length) :
    (content s).length = s.slen := by
  rw [content_eq]
  simp only [List.length_take]
  omega

/-- The modelled `strcmp` is negative exactly on lexicographically smaller
inputs (bytes compared as unsigned), provided the right list has no NUL. -/
theorem strcmpM_neg_iff : ∀ (A B : List Nat), (∀ b ∈ B, b ≠ 0) →
    (strcmpM A B < 0 ↔ List.Lex (· < ·) A B)
  | [], [] => fun _ => by
      constructor
      · intro h; unfold strcmpM at h; omega
      · intro h; cases h
  | [], b :: t => fun hB => by
      have hb : b ≠ 0 := hB b (by simp)
      constructor
      · intro _; exact List.Lex.nil
      · intro _; unfold strcmpM; omega
  | a :: t1, [] => fun _ => by
      constructor
      · intro h; unfold strcmpM at h; omega
      · intro h; cases h
  | a :: t1, b :: t2 => fun hB => by
      have ih := strcmpM_neg_iff t1 t2 (fun x hx => hB x (by simp [hx]))
      by_cases hab : a = b
      · subst hab
        unfold strcmpM
        rw [if_pos rfl]
        constructor
        · intro h; exact List.Lex.cons (ih.mp h)
        · intro h
          cases h with
          | cons h' => exact ih.mpr h'
          | rel h' => exact absurd h' (lt_irrefl _)
      · unfold strcmpM
        rw [if_neg hab]
        constructor
        · intro h; exact List.Lex.rel (by omega)
        · intro h
          cases h with
          | cons h' => exact absurd rfl hab
          | rel h' => omega

/-- The modelled `strcmp` is zero exactly on equal inputs, provided neither
list contains a NUL. -/
theorem strcmpM_zero_iff : ∀ (A B : List Nat),
    (∀ a ∈ A, a ≠ 0) → (∀ b ∈ B, b ≠ 0) → (strcmpM A B = 0 ↔ A = B)
  | [], [] => fun _ _ => by
      constructor
      · intro _; rfl
      · intro _; rfl
  | [], b :: t => fun _ hB => by
      have hb : b ≠ 0 := hB b (by simp)
      unfold strcmpM
      constructor
      · intro h; omega
      · intro h; exact absurd h (by simp)
  | a :: t1, [] => fun hA _ => by
      have ha : a ≠ 0 := hA a (by simp)
      unfold strcmpM
      constructor
      · intro h; omega
      · intro h; exact absurd h (by simp)
  | a :: t1, b :: t2 => fun hA hB => by
      have ih := strcmpM_zero_iff t1 t2 (fun x hx => hA x (by simp [hx]))
        (fun x hx => hB x (by simp [hx]))
      by_cases hab : a = b
      · subst hab
        unfold strcmpM
        rw [if_pos rfl]
        constructor
        · intro h; rw [ih.mp h]
        · intro h
          injection h with h1 h2
          exact ih.mpr h2
      · unfold strcmpM
        rw [if_neg hab]
        constructor
        · intro h; omega
        · intro h
          injection h with h1 h2
          exact absurd h1 hab

/-- C8: `compareTo` is a byte-wise lexicographic comparison: it is negative
exactly on lexicographically smaller content and zero exactly on equal
content, an empty (or invalid, hence empty) value compares strictly below any
non-empty value and equal to another empty one, and the four ordering
operators are each the corresponding sign test of this single comparison. -/
theorem c8_compare (s1 s2 : String) (h1 : Wf s1) (h2 : Wf s2) :
    (s1.slen = 0 → 0 < s2.slen → compareTo s1 s2 < 0) ∧
    (s1.slen = 0 → s2.slen = 0 → compareTo s1 s2 = 0) ∧
    (compareTo s1 s2 < 0 ↔ List.Lex (· < ·) (content s1) (content s2)) ∧
    (compareTo s1 s2 = 0 ↔ content s1 = content s2) ∧
    ltOp s1 s2 = decide (compareTo s1 s2 < 0) ∧
    gtOp s1 s2 = decide (0 < compareTo s1 s2) ∧
    leOp s1 s2 = decide (compareTo s1 s2 ≤ 0) ∧
    geOp s1 s2 = decide (0 ≤ compareTo s1 s2) := by
  have hc : compareTo s1 s2 = strcmpM (content s1) (content s2) := by
    unfold compareTo
    rw [h1.cstrOf_eq, h2.cstrOf_eq, ← content_eq, ← content_eq]
  have hA : ∀ a ∈ content s1, a ≠ 0 := by
    rw [content_eq]; exact h1.2.1
  have hB : ∀ b ∈ content s2, b ≠ 0 := by
    rw [content_eq]; exact h2.2.1
  refine ⟨?_, ?_, ?_, ?_, rfl, rfl, rfl, rfl⟩
  · intro hz1 hpos
    have e1 : content s1 = [] := by
      rw [content_eq, hz1, List.take_zero]
    rw [hc, e1]
    cases hc2 : content s2 with
    | nil =>
      have := content_length (s := s2) (by have := h2.1; omega)
      rw [hc2] at this
      simp at this
      omega
    | cons b t =>
      have hb : b ≠ 0 := hB b (by rw [hc2]; exact List.mem_cons_self b t)
      unfold strcmpM
      omega
  · intro hz1 hz2
    have e1 : content s1 = [] := by rw [content_eq, hz1, List.take_zero]
    have e2 : content s2 = [] := by rw [content_eq, hz2, List.take_zero]
    rw [hc, e1, e2]
    rfl
  · rw [hc]
    exact strcmpM_neg_iff (content s1) (content s2) hB
  · rw [hc]
    exact strcmpM_zero_iff (content s1) (content s2) hA hB

/-- Witness for `c8_compare`: instantiated at "abc" and "banana". -/
theorem c8_compare_witness :
    (abcS.slen = 0 → 0 < bananaS.slen → compareTo abcS bananaS < 0) ∧
    (abcS.slen = 0 → bananaS.slen = 0 → compareTo abcS bananaS = 0) ∧
    (compareTo abcS bananaS < 0 ↔
      List.Lex (· < ·) (content abcS) (content bananaS)) ∧
    (compareTo abcS bananaS = 0 ↔ content abcS = content bananaS) ∧
    ltOp abcS bananaS = decide (compareTo abcS bananaS < 0) ∧
    gtOp abcS bananaS = decide (0 < compareTo abcS bananaS) ∧
    leOp abcS bananaS = decide (compareTo abcS bananaS ≤ 0) ∧
    geOp abcS bananaS = decide (0 ≤ compareTo abcS bananaS) :=
  c8_compare abcS bananaS (by decide) (by decide)

/-- The constant-time loop charges every scanned position to exactly one of
its two counters: their sum is the full scanned length. -/
theorem ectCounts_sum : ∀ (A B : List Nat), A.length ≤ B.length →
    (ectCounts A B).1 + (ectCounts A B).2 = A.length
  | [], _ => fun _ => by unfold ectCounts; rfl
  | a :: t, [] => fun h => by simp at h
  | a :: t1, b :: t2 => fun h => by
      have ih := ectCounts_sum t1 t2 (by simpa using h)
      unfold ectCounts
      by_cases hab : a = b
      · simp only [if_pos hab]
        simpa using by omega
      · simp only [if_neg hab]
        simpa using by omega

/-- The mismatch counter of the constant-time loop is zero exactly when the
first list equals the corresponding prefix of the second. -/
theorem ectCounts_snd_zero_iff : ∀ (A B : List Nat), A.length ≤ B.length →
    ((ectCounts A B).2 = 0 ↔ A = B.take A.length)
  | [], _ => fun _ => by unfold ectCounts; simp
  | a :: t, [] => fun h => by simp at h
  | a :: t1, b :: t2 => fun h => by
      have ih := ectCounts_snd_zero_iff t1 t2 (by simpa using h)
      unfold ectCounts
      by_cases hab : a = b
      · simp only [if_pos hab, List.length_cons, List.take_succ_cons]
        subst hab
        constructor
        · intro h2
          exact congrArg (List.cons a) (ih.mp h2)
        · intro h2
          injection h2 with h3 h4
          exact ih.mpr h4
      · simp only [if_neg hab, List.length_cons, List.take_succ_cons]
        constructor
        · intro h2
          exact absurd h2 (by simp)
        · intro h2
          injection h2 with h3 h4
          exact absurd h3 hab

/-- C9: `equalsConstantTime` returns 1 exactly when lengths and every content
byte agree, returns 0 or 1, and — apart from the initial length check — its
loop visits every byte position of the (equal-length, non-empty) content,
charging each position to one of the two counters whose final tests are then
combined by a bitwise AND. -/
theorem c9_constant_time_equality (s1 s2 : String) (h1 : Wf s1) (h2 : Wf s2) :
    (equalsConstantTime s1 s2 = 1 ↔
      s1.slen = s2.slen ∧ content s1 = content s2) ∧
    (equalsConstantTime s1 s2 = 0 ∨ equalsConstantTime s1 s2 = 1) ∧
    (s1.slen = s2.slen → 0 < s1.slen →
      (ectCounts (cstrOf s1) (readRange s2.buf 0 (cstrOf s1).length)).1 +
        (ectCounts (cstrOf s1) (readRange s2.buf 0 (cstrOf s1).length)).2
        = s1.slen) := by
  have hA : cstrOf s1 = content s1 := h1.cstrOf_eq.trans (content_eq s1).symm
  have hAlen : (cstrOf s1).length = s1.slen := by
    rw [hA]
    exact content_length (by have := h1.1; omega)
  have hBfull : ∀ (heq : s1.slen = s2.slen),
      readRange s2.buf 0 (cstrOf s1).length = content s2 := by
    intro heq
    rw [readRange_zero, hAlen, heq, ← content_eq]
  have hBlen : ∀ (heq : s1.slen = s2.slen),
      (readRange s2.buf 0 (cstrOf s1).length).length = s1.slen := by
    intro heq
    rw [hBfull heq, content_length (by have := h2.1; omega), heq]
  have third : s1.slen = s2.slen → 0 < s1.slen →
      (ectCounts (cstrOf s1) (readRange s2.buf 0 (cstrOf s1).length)).1 +
        (ectCounts (cstrOf s1) (readRange s2.buf 0 (cstrOf s1).length)).2
        = s1.slen := by
    intro heq _
    rw [ectCounts_sum (cstrOf s1) (readRange s2.buf 0 (cstrOf s1).length)
          (le_of_eq ((hAlen).trans (hBlen heq).symm)), hAlen]
  by_cases hq : s1.slen = s2.slen
  · by_cases hz : s1.slen = 0
    · have e1 : content s1 = [] := by rw [content_eq, hz, List.take_zero]
      have e2 : content s2 = [] := by rw [content_eq, ← hq, hz, List.take_zero]
      have hev : equalsConstantTime s1 s2 = 1 := by
        unfold equalsConstantTime
        rw [if_neg (by omega), if_pos hz]
      rw [hev]
      exact ⟨⟨fun _ => ⟨hq, e1.trans e2.symm⟩, fun _ => rfl⟩, Or.inr rfl, third⟩
    · have hsnd := ectCounts_snd_zero_iff (cstrOf s1)
        (readRange s2.buf 0 (cstrOf s1).length)
        (le_of_eq ((hAlen).trans (hBlen hq).symm))
      have hsum := ectCounts_sum (cstrOf s1)
        (readRange s2.buf 0 (cstrOf s1).length)
        (le_of_eq ((hAlen).trans (hBlen hq).symm))
      have htakeB : (readRange s2.buf 0 (cstrOf s1).length).take
          (cstrOf s1).length = readRange s2.buf 0 (cstrOf s1).length :=
        List.take_of_length_le (le_of_eq ((hBlen hq).trans hAlen.symm))
      have hcontentiff : (ectCounts (cstrOf s1)
            (readRange s2.buf 0 (cstrOf s1).length)).2 = 0 ↔
          content s1 = content s2 := by
        rw [hsnd, htakeB, hBfull hq, hA]
      have hev : equalsConstantTime s1 s2 =
          (if (ectCounts (cstrOf s1)
              (readRange s2.buf 0 (cstrOf s1).length)).1 = s1.slen
            then 1 else 0) &&&
          (if (ectCounts (cstrOf s1)
              (readRange s2.buf 0 (cstrOf s1).length)).2 = 0
            then 1 else 0) := by
        unfold equalsConstantTime
        rw [if_neg (by omega), if_neg hz]
      rw [hev]
      by_cases hc1 : (ectCounts (cstrOf s1)
          (readRange s2.buf 0 (cstrOf s1).length)).1 = s1.slen
      · by_cases hc2 : (ectCounts (cstrOf s1)
            (readRange s2.buf 0 (cstrOf s1).length)).2 = 0
        · rw [if_pos hc1, if_pos hc2]
          exact ⟨⟨fun _ => ⟨hq, hcontentiff.mp hc2⟩, fun _ => by decide⟩,
            Or.inr (by decide), third⟩
        · rw [if_pos hc1, if_neg hc2]
          refine ⟨⟨fun hff => absurd hff (by decide), fun hcc => ?_⟩,
            Or.inl (by decide), third⟩
          exact absurd (hcontentiff.mpr hcc.2) hc2
      · by_cases hc2 : (ectCounts (cstrOf s1)
            (readRange s2.buf 0 (cstrOf s1).length)).2 = 0
        · rw [if_neg hc1, if_pos hc2]
          refine ⟨⟨fun hff => absurd hff (by decide), fun hcc => ?_⟩,
            Or.inl (by decide), third⟩
          rw [hcontentiff.mpr hcc.2] at hsum
          rw [hAlen] at hsum
          omega
        · rw [if_neg hc1, if_neg hc2]
          refine ⟨⟨fun hff => absurd hff (by decide), fun hcc => ?_⟩,
            Or.inl (by decide), third⟩
          exact absurd (hcontentiff.mpr hcc.2) hc2
  · have hev : equalsConstantTime s1 s2 = 0 := by
      unfold equalsConstantTime
      rw [if_pos hq]
    rw [hev]
    exact ⟨⟨fun hff => absurd hff (by decide), fun hcc => absurd hcc.1 hq⟩,
      Or.inl rfl, third⟩

/-- Witness for `c9_constant_time_equality`: instantiated at the equal-length
distinct values "abc" and "abd": the comparison returns 0 (not 1), and the
two counters of its full scan sum to the whole length 3. -/
theorem c9_constant_time_equality_witness :
    ((equalsConstantTime abcS (mkSSO [97, 98, 100]) = 1 ↔
      abcS.slen = (mkSSO [97, 98, 100]).slen ∧
      content abcS = content (mkSSO [97, 98, 100])) ∧
     (equalsConstantTime abcS (mkSSO [97, 98, 100]) = 0 ∨
      equalsConstantTime abcS (mkSSO [97, 98, 100]) = 1) ∧
     (abcS.slen = (mkSSO [97, 98, 100]).slen → 0 < abcS.slen →
      (ectCounts (cstrOf abcS)
          (readRange (mkSSO [97, 98, 100]).buf 0 (cstrOf abcS).length)).1 +
        (ectCounts (cstrOf abcS)
          (readRange (mkSSO [97, 98, 100]).buf 0 (cstrOf abcS).length)).2
        = abcS.slen)) ∧
    equalsConstantTime abcS (mkSSO [97, 98, 100]) = 0 :=
  ⟨c9_constant_time_equality abcS (mkSSO [97, 98, 100]) (by decide) (by decide),
   by decide⟩

/-- C10: the claim fails on the code.  For the one-byte value "x" trimmed by
the character set "x", the leading scan does not stop at the terminator:
after the `charLen++` the `memchr` window includes the set's own terminator,
so the byte 0 at offset `length` is "found" and the scan keeps reading — in
the model it runs through the whole 11-byte allocation (in C it reads past
the allocation), and `remove(0, count)` receives `count = 11 > length = 1`. -/
theorem c10_scan_past_terminator :
    xS.slen = 1 ∧ trimLeftScanCount xS [120] = SSOSIZE ∧
    ¬ trimLeftScanCount xS [120] ≤ xS.slen := by decide

/-- C3: the claim fails on the code.  Replacing "aa" by "aaa" in a value of
ten 'a' bytes succeeds (returns true) although the right-to-left rewrite
pass of the growing branch re-finds overlapping matches that the counting
pass never counted: the final length 19 exceeds the capacity 15 of the block
grown for the computed size 15, the writes past the 16-byte block are out of
bounds, and the claimed `length ≤ capacity` / terminator invariant fails. -/
theorem c3_invariant_broken_by_replace :
    (replaceStrs allocTrue tenAsS (some [97, 97]) [97, 97, 97]).1 = true ∧
    (replaceStrs allocTrue tenAsS (some [97, 97]) [97, 97, 97]).2.slen = 19 ∧
    (replaceStrs allocTrue tenAsS (some [97, 97]) [97, 97, 97]).2.buf.length = 16 ∧
    ¬ (replaceStrs allocTrue tenAsS (some [97, 97]) [97, 97, 97]).2.slen ≤
        capacity (replaceStrs allocTrue tenAsS (some [97, 97]) [97, 97, 97]).2 ∧
    ¬ Wf (replaceStrs allocTrue tenAsS (some [97, 97]) [97, 97, 97]).2 := by decide

/-- C1 counterexample: a zero-match replace through the equal-length branch
returns true, not false (the value "abc" with find pattern "x", replacement
"y"); only the growing branch signals a zero-match run with false. -/
theorem c1_counterexample :
    replaceStrs allocTrue abcS (some [120]) [121] = (true, abcS) ∧
    ¬ (replaceStrs allocTrue abcS (some [120]) [121]).1 = false := by decide

/-- C1 (amended): a zero-match general replace on a non-empty value with a
non-empty find pattern leaves content and length unchanged; the growing
branch (`replaceLen > findLen`) returns false, while the equal-length and
shrinking branches return true. -/
theorem c1_amended (alloc : Nat → Bool) (s : String) (find rep : List Nat)
    (hw : Wf s) (hlen : 0 < s.slen) (hfind : 0 < find.length)
    (hni : ¬ find <:+: content s) :
    replaceStrs alloc s (some find) rep = (decide (rep.length ≤ find.length), s) := by
  have hcs : s.buf.takeWhile nz = content s :=
    hw.cstrOf_eq.trans (content_eq s).symm
  have hnone : strstrIdx ((s.buf.drop 0).takeWhile nz) find = none := by
    rw [List.drop_zero, hcs]
    exact strstrIdx_eq_none hni
  have hguard : ¬ (s.slen = 0 ∨ find.length = 0) := by omega
  simp only [replaceStrs, hguard, if_false]
  by_cases h1 : rep.length = find.length
  · rw [if_pos h1,
        replaceEqLoop_stop find rep (s.buf.length + s.slen + 2) s.buf 0 hnone]
    rw [decide_eq_true (le_of_eq h1)]
  · rw [if_neg h1]
    by_cases h2 : rep.length < find.length
    · rw [if_pos h2,
          replaceShrinkLoop_stop find rep (find.length - rep.length)
            (s.buf.length + s.slen + 2) s.buf 0 0 s.slen hnone]
      have harg : (s.buf.drop 0).takeWhile nz ++ [0] = s.buf.take (s.slen + 1) := by
        rw [List.drop_zero, hcs, content_eq,
            take_succ_getD s.buf s.slen (by have := hw.1; omega), hw.2.2]
      rw [decide_eq_true (le_of_lt h2)]
      show (true, String.mk s.isSSO
        (writeRange s.buf 0 ((s.buf.drop 0).takeWhile nz ++ [0])) s.slen) = (true, s)
      rw [harg, writeRange_prefix_self]
    · rw [if_neg h2,
          replaceCountLoop_stop find (rep.length - find.length)
            (s.buf.length + s.slen + 2) s.buf 0 s.slen hnone,
          if_pos rfl]
      rw [decide_eq_false (by omega : ¬ rep.length ≤ find.length)]

/-- Witness for `c1_amended`: the value "abc" with the absent pattern "xy"
and the shorter replacement "z" goes through the shrinking branch, returns
true and changes nothing. -/
theorem c1_amended_witness :
    Wf abcS ∧ ¬ [120, 121] <:+: content abcS ∧
    replaceStrs allocTrue abcS (some [120, 121]) [122] =
      (decide ([122].length ≤ [120, 121].length), abcS) :=
  ⟨by decide, by decide,
   c1_amended allocTrue abcS [120, 121] [122] (by decide) (by decide)
     (by decide) (by decide)⟩

/-- C6: the growing-branch replace of "a" by "aa" in "banana" returns true
and yields "baanaanaa"; and whenever the upfront growth to the counted final
size fails, the whole operation fails with the value left untouched. -/
theorem c6_growing_replace :
    replaceStrs allocTrue bananaS (some [97]) [97, 97] =
      (true, ⟨true, [98, 97, 97, 110, 97, 97, 110, 97, 97, 0, 0], 9⟩) ∧
    (∀ (alloc : Nat → Bool) (s : String) (find rep : List Nat),
      s.slen ≠ 0 → find.length ≠ 0 → find.length < rep.length →
      replaceCountLoop find (rep.length - find.length)
        (s.buf.length + s.slen + 2) s.buf 0 s.slen ≠ s.slen →
      capacity s < replaceCountLoop find (rep.length - find.length)
        (s.buf.length + s.slen + 2) s.buf 0 s.slen →
      changeBuffer alloc s (replaceCountLoop find (rep.length - find.length)
        (s.buf.length + s.slen + 2) s.buf 0 s.slen) = none →
      replaceStrs alloc s (some find) rep = (false, s)) := by
  refine ⟨by decide, ?_⟩
  intro alloc s find rep h0 hf hlt hsz hcap hcb
  have hguard : ¬ (s.slen = 0 ∨ find.length = 0) := by omega
  simp only [replaceStrs, hguard, if_false]
  rw [if_neg (by omega : ¬ rep.length = find.length),
      if_neg (by omega : ¬ rep.length < find.length),
      if_neg hsz, if_pos hcap, hcb]

/-- Witness for `c6_growing_replace`: replacing "a" by eight 'a' bytes in
"banana" needs 27 bytes; under the always-failing allocator the upfront
growth fails and the call returns false with "banana" unchanged. -/
theorem c6_growing_replace_witness :
    changeBuffer allocFalse bananaS
      (replaceCountLoop [97] ((List.replicate 8 97).length - 1)
        (bananaS.buf.length + bananaS.slen + 2) bananaS.buf 0 bananaS.slen) = none ∧
    replaceStrs allocFalse bananaS (some [97]) (List.replicate 8 97) =
      (false, bananaS) :=
  ⟨by decide,
   (c6_growing_replace).2 allocFalse bananaS [97] (List.replicate 8 97)
     (by decide) (by decide) (by decide) (by decide) (by decide) (by decide)⟩

/-- A successful `changeBuffer` keeps the length and the leading `len` bytes,
and yields a block able to hold `maxStrLen` content bytes plus terminator.
The hypotheses say the value is in range and inline blocks have the inline
size — true of every reachable state. -/
theorem changeBuffer_some_spec {alloc : Nat → Bool} {s : String} {m : Nat}
    {t : String} (h : changeBuffer alloc s m = some t)
    (hsso : s.isSSO = true → s.buf.length = SSOSIZE)
    (hlen : s.slen + 1 ≤ s.buf.length) (hm : s.slen ≤ m) :
    t.slen = s.slen ∧ t.buf.take s.slen = s.buf.take s.slen ∧
    m + 1 ≤ t.buf.length ∧ s.slen + 1 ≤ t.buf.length := by
  have hS : SSOSIZE = 11 := rfl
  by_cases hsmall : m < SSOSIZE - 1
  · by_cases hisso : s.isSSO = true
    · simp only [changeBuffer, if_pos hsmall, if_pos hisso, Option.some.injEq] at h
      subst h
      have h11 := hsso hisso
      exact ⟨rfl, rfl, by omega, hlen⟩
    · simp only [changeBuffer, if_pos hsmall, if_neg hisso, Option.some.injEq] at h
      subst h
      refine ⟨rfl, ?_, ?_, ?_⟩
      · show (writeRange (List.replicate SSOSIZE 0) 0 (s.buf.take m)).take s.slen
            = s.buf.take s.slen
        unfold writeRange
        simp only [List.take_zero, List.nil_append, Nat.zero_add,
          List.length_replicate, List.take_take]
        rw [Nat.min_eq_left (by omega : s.slen ≤ SSOSIZE)]
        rw [List.take_append_of_le_length
              (by simp only [List.length_take]; omega)]
        rw [List.take_take, Nat.min_eq_left hm]
      · show m + 1 ≤ (writeRange (List.replicate SSOSIZE 0) 0 (s.buf.take m)).length
        unfold writeRange
        simp only [List.length_take, List.length_append, List.length_drop,
          List.length_replicate]
        omega
      · show s.slen + 1 ≤ (writeRange (List.replicate SSOSIZE 0) 0 (s.buf.take m)).length
        unfold writeRange
        simp only [List.length_take, List.length_append, List.length_drop,
          List.length_replicate]
        omega
  · by_cases hbig : (m + 16) / 16 * 16 > CAPACITY_MAX
    · simp only [changeBuffer, if_neg hsmall, if_pos hbig] at h
      exact Option.noConfusion h
    · by_cases hal : alloc ((m + 16) / 16 * 16) = true
      · simp only [changeBuffer, if_neg hsmall, if_neg hbig, if_pos hal,
          Option.some.injEq] at h
        subst h
        have hns : m + 1 ≤ (m + 16) / 16 * 16 := by omega
        refine ⟨rfl, ?_, ?_, ?_⟩
        · show (s.buf.take ((m + 16) / 16 * 16) ++
              List.replicate ((m + 16) / 16 * 16 - s.buf.length) 0).take s.slen
            = s.buf.take s.slen
          rw [List.take_append_of_le_length
                (by simp only [List.length_take]; omega)]
          rw [List.take_take, Nat.min_eq_left (by omega)]
        · simp only [List.length_append, List.length_take, List.length_replicate]
          omega
        · simp only [List.length_append, List.length_take, List.length_replicate]
          omega
      · simp only [changeBuffer, if_neg hsmall, if_neg hbig, if_neg hal] at h
        exact Option.noConfusion h

/-- A successful `reserve` keeps the length and the leading `len` bytes, and
yields a block able to hold `size` content bytes plus terminator. -/
theorem reserve_some_spec {alloc : Nat → Bool} {s : String} {n : Nat}
    {t : String} (h : reserve alloc s n = some t)
    (hsso : s.isSSO = true → s.buf.length = SSOSIZE)
    (hlen : s.slen + 1 ≤ s.buf.length) (hn : s.slen ≤ n) :
    t.slen = s.slen ∧ t.buf.take s.slen = s.buf.take s.slen ∧
    n + 1 ≤ t.buf.length ∧ s.slen + 1 ≤ t.buf.length := by
  unfold reserve at h
  by_cases hcap : n ≤ capacity s
  · rw [if_pos hcap] at h
    cases h
    refine ⟨rfl, rfl, ?_, hlen⟩
    unfold capacity at hcap
    omega
  · rw [if_neg hcap] at h
    cases hcb : changeBuffer alloc s n with
    | none => rw [hcb] at h; cases h
    | some u =>
      rw [hcb] at h
      have spec := changeBuffer_some_spec hcb hsso hlen hn
      obtain ⟨h1, h2, h3, h4⟩ := spec
      injection h with h'
      by_cases hz : u.slen = 0
      · rw [if_pos hz] at h'
        subst h'
        have hs0 : s.slen = 0 := by omega
        refine ⟨by simpa using h1, ?_, ?_, ?_⟩
        · simp [hs0]
        · simpa using h3
        · simpa using h4
      · rw [if_neg hz] at h'
        subst h'
        exact ⟨h1, h2, h3, h4⟩

/-- C5 (amended): self-concatenation doubles the value when the capacity
growth succeeds — "ab" becomes "abab", "banana" becomes "bananabanana" even
though its growth relocates the storage to a fresh heap block — and returns
false leaving the value unchanged when the growth fails. -/
theorem c5_amended (alloc : Nat → Bool) (s : String)
    (hlen : s.slen + 1 ≤ s.buf.length)
    (hsso : s.isSSO = true → s.buf.length = SSOSIZE) :
    (((concatSelf alloc s).1 = true →
      content (concatSelf alloc s).2 = content s ++ content s ∧
      (concatSelf alloc s).2.slen = 2 * s.slen) ∧
     ((concatSelf alloc s).1 = false → (concatSelf alloc s).2 = s)) ∧
    concatSelf allocTrue (mkSSO [97, 98]) = (true, mkSSO [97, 98, 97, 98]) ∧
    concatSelf allocTrue bananaS =
      (true, ⟨false, [98, 97, 110, 97, 110, 97, 98, 97, 110, 97, 110, 97,
                      0, 0, 0, 0], 12⟩) := by
  refine ⟨?_, by decide, by decide⟩
  unfold concatSelf
  by_cases hz : s.slen = 0
  · rw [if_pos hz]
    refine ⟨fun _ => ⟨?_, ?_⟩, fun hf => nomatch hf⟩
    · simp [content_eq, hz]
    · simp [hz]
  · rw [if_neg hz]
    cases hr : reserve alloc s (2 * s.slen) with
    | none =>
      exact ⟨fun htrue => (nomatch htrue), fun _ => rfl⟩
    | some t =>
      obtain ⟨hslen, htake, hcap2, hlen2⟩ :=
        reserve_some_spec hr hsso hlen (by omega)
      refine ⟨fun _ => ⟨?_, ?_⟩, fun hf => nomatch hf⟩
      · rw [content_eq]
        show ((writeRange t.buf t.slen (readRange t.buf 0 t.slen)).set
                (2 * t.slen) 0).take (2 * t.slen) = content s ++ content s
        have hsrc : readRange t.buf 0 t.slen = t.buf.take s.slen := by
          rw [readRange_zero, hslen]
        have hsrclen : (t.buf.take s.slen).length = s.slen := by
          simp only [List.length_take]; omega
        have hA : (t.buf.take s.slen).take (2 * s.slen) = t.buf.take s.slen := by
          rw [List.take_take, Nat.min_eq_right (by omega)]
        have hA2 : (t.buf.take s.slen).take s.slen = t.buf.take s.slen := by
          rw [List.take_take, Nat.min_eq_left (le_refl _)]
        rw [hsrc, hslen]
        rw [take_set_ge 0 _ (2 * s.slen) (2 * s.slen) (le_refl _)]
        rw [writeRange_eq t.buf s.slen (t.buf.take s.slen)
              (by rw [hsrclen]; omega)]
        rw [hsrclen]
        rw [List.append_assoc, List.take_append_eq_append_take, hA, hsrclen,
            show 2 * s.slen - s.slen = s.slen from by omega,
            List.take_append_eq_append_take, hA2, hsrclen, Nat.sub_self,
            List.take_zero, List.append_nil, htake, content_eq]
      · show 2 * t.slen = 2 * s.slen
        rw [hslen]

/-- Witness for `c5_amended`: instantiated at "banana" under the
always-succeeding allocator, whose self-concat relocates and doubles. -/
theorem c5_amended_witness :
    content (concatSelf allocTrue bananaS).2 = content bananaS ++ content bananaS ∧
    (concatSelf allocTrue bananaS).2.slen = 2 * bananaS.slen :=
  (c5_amended allocTrue bananaS (by decide) (by decide)).1.1 (by decide)

/-- C5 counterexample: self-concatenation is not unconditionally successful:
for "banana" (length 6, inline capacity 10) the needed growth to 12 bytes
goes through the allocator, and under the always-failing allocator the call
returns false and leaves the value unchanged instead of doubling it. -/
theorem c5_counterexample :
    concatSelf allocFalse bananaS = (false, bananaS) ∧
    ¬ (concatSelf allocFalse bananaS).1 = true := by decide

/-- C7: `substring(left, right)` swaps an inverted range, clamps the upper
bound to the length, and returns a fresh value holding exactly the bytes of
the normalized clamped range `[min, min(max, len))`; the source value is
unchanged after the call (the temporary in-place termination is restored).
The hypotheses: well-formed source, a succeeding allocator and a length under
the allocation cap — beyond them the copy-construction of the result would
fail by `AllocationFailure`, which is C2's concern, not this claim's. -/
theorem c7_substring (alloc : Nat → Bool) (s : String) (left right : Nat)
    (hw : Wf s) (halloc : ∀ m, alloc m = true) (hceil : s.slen ≤ 65519) :
    (substring alloc s left right).2 = s ∧
    content (substring alloc s left right).1 =
      readRange s.buf (min left right)
        (min (max left right) s.slen - min left right) ∧
    (substring alloc s left right).1.slen =
      min (max left right) s.slen - min left right := by
  simp only [substring, swap_pair]
  by_cases hempty : s.slen ≤ min left right
  · rw [if_pos (show s.slen ≤ (min left right, max left right).1 from hempty)]
    refine ⟨rfl, ?_, ?_⟩
    · rw [show min (max left right) s.slen - min left right = 0 from by omega]
      rfl
    · rw [show min (max left right) s.slen - min left right = 0 from by omega]
      rfl
  · rw [if_neg (show ¬ s.slen ≤ (min left right, max left right).1 from hempty)]
    set l' := min left right with hl'def
    set r' := min (max left right) s.slen with hr'def
    have hl's : l' < s.slen := by omega
    have hl'r' : l' ≤ r' := by
      have : l' ≤ max left right := by omega
      omega
    have hr's : r' ≤ s.slen := by omega
    have hr'lt : r' < s.buf.length := by have := hw.1; omega
    have hset : s.buf.set r' 0 = s.buf.take r' ++ 0 :: s.buf.drop (r' + 1) := by
      rw [List.set_eq_take_append_cons_drop, if_pos hr'lt]
    have htake_len : (s.buf.take r').length = r' := by
      simp only [List.length_take]
      omega
    have hdrop : (s.buf.set r' 0).drop l'
        = readRange s.buf l' (r' - l') ++ 0 :: s.buf.drop (r' + 1) := by
      rw [hset, List.drop_append_eq_append_drop, htake_len,
          show l' - r' = 0 from by omega, List.drop_zero, List.drop_take]
      rfl
    have hX : ∀ a ∈ readRange s.buf l' (r' - l'), a ≠ 0 := by
      intro a ha
      apply hw.2.1
      have h1 : a ∈ s.buf.take r' := by
        apply List.drop_subset l' (s.buf.take r')
        rw [List.drop_take]
        exact ha
      have h2 : s.buf.take r' = (s.buf.take s.slen).take r' := by
        rw [List.take_take, Nat.min_eq_left (by omega)]
      rw [h2] at h1
      exact List.take_subset r' (s.buf.take s.slen) h1
    have hA : ((s.buf.set r' 0).drop l').takeWhile nz
        = readRange s.buf l' (r' - l') := by
      rw [hdrop]
      exact takeWhile_nz_append _ _ hX
    have hAlen : (readRange s.buf l' (r' - l')).length = r' - l' := by
      simp only [readRange, List.length_take, List.length_drop]
      omega
    rw [hA]
    obtain ⟨t, ht⟩ := reserve_isSome alloc init
      (readRange s.buf l' (r' - l')).length halloc (by rw [hAlen]; omega)
    have spec := reserve_some_spec ht (fun _ => by simp [init])
      (by decide) (Nat.zero_le _)
    obtain ⟨hcc, hcs⟩ := copy_content alloc init
      (readRange s.buf l' (r' - l')) ht spec.2.2.1
    refine ⟨?_, hcc, ?_⟩
    · show String.mk s.isSSO ((s.buf.set r' 0).set r' (s.buf.getD r' 0)) s.slen = s
      rw [List.set_set, set_getD_self 0 s.buf r' hr'lt]
    · rw [hcs, hAlen]

/-- Witness for `c7_substring`: "abcdef" with the inverted range (4, 2)
yields the two bytes "cd" of the normalized range [2, 4), and the direct
range (2, 4) yields the same. -/
theorem c7_substring_witness :
    ((substring allocTrue abcdefS 4 2).2 = abcdefS ∧
     content (substring allocTrue abcdefS 4 2).1 =
       readRange abcdefS.buf (min 4 2) (min (max 4 2) abcdefS.slen - min 4 2) ∧
     (substring allocTrue abcdefS 4 2).1.slen =
       min (max 4 2) abcdefS.slen - min 4 2) ∧
    content (substring allocTrue abcdefS 4 2).1 = [99, 100] ∧
    content (substring allocTrue abcdefS 2 4).1 = [99, 100] :=
  ⟨c7_substring allocTrue abcdefS 4 2 (by decide) (fun _ => rfl) (by decide),
   by decide, by decide⟩


end WString
